import Mathlib

/-!
Verification development for the duplicate-detection core of the
backupCLI repository (package `local`, file with `EncodeKeySuffix`,
`DecodeKeySuffix`, `DuplicateManager`, and the request planner).

Bytes are modelled as natural numbers (a real byte is `< 256`; the
well-formedness hypotheses appear on the theorems that need them).
Byte strings are `List Nat`, compared exactly as Go's `bytes.Compare`
compares byte slices.
-/

namespace DupDetect

/-- Comparison of byte strings, modelling Go `bytes.Compare`:
lexicographic on the bytes, a proper prefix is smaller. -/
def bytesCmp : List Nat → List Nat → Ordering
  | [], [] => .eq
  | [], _ :: _ => .lt
  | _ :: _, [] => .gt
  | a :: as, b :: bs => if a < b then .lt else if b < a then .gt else bytesCmp as bs

/-- Block size of the memcomparable encoding (8 data bytes per block). -/
def encGroupSize : Nat := 8

/-- The marker byte of a full block (0xFF). -/
def encMarker : Nat := 255

/-- The padding byte (0x00). -/
def encPad : Nat := 0

/-- Modelled from the spec: `codec.EncodeBytes` of the key codec
collaborator (pingcap/tidb util/codec), whose source is not under
`src/`.  The spec mandates the standard block-padded memcomparable
scheme: the data is cut into 8-byte blocks, every full block is
followed by the marker `0xFF`, and the final (possibly empty) block is
padded with `0x00` up to 8 bytes and followed by the marker
`0xFF - pad_count`.  A data length divisible by 8 therefore ends with
an all-padding block whose marker is `0xF7`. -/
def encodeBytes (k : List Nat) : List Nat :=
  if h : encGroupSize ≤ k.length then
    k.take encGroupSize ++ encMarker :: encodeBytes (k.drop encGroupSize)
  else
    k ++ List.replicate (encGroupSize - k.length) encPad ++
      [encMarker - (encGroupSize - k.length)]
termination_by k.length
decreasing_by
  simp only [List.length_drop]
  simp only [encGroupSize] at h ⊢
  omega

/-- The error kinds of the decoding path.  `shortInput` is the length
check of `DecodeKeySuffix` itself; the other three are the three error
returns of the collaborator `codec.DecodeBytes` (insufficient bytes to
decode a block, a marker byte whose implied pad count exceeds the block
size, and a nonzero padding byte in the terminating block). -/
inductive DecErr where
  | shortInput
  | insufficientBytes
  | invalidMarker
  | invalidPadding
deriving DecidableEq, Repr

/-- Modelled from the spec: the block-decoding loop of
`codec.DecodeBytes`.  It consumes 9-byte blocks; a block whose marker
is `0xFF` contributes its 8 data bytes and the loop continues, a block
whose marker implies a pad count in `[1,8]` terminates the loop after
checking that the padding bytes are zero, and anything else is an
error.  Returns the remaining input after the terminating block
together with the decoded data. -/
def decodeBytesLoop (b acc : List Nat) : Except DecErr (List Nat × List Nat) :=
  if h : b.length < encGroupSize + 1 then .error .insufficientBytes
  else
    let group := b.take encGroupSize
    let m := (b.drop encGroupSize).headD 0
    let padCount := encMarker - m
    if encGroupSize < padCount then .error .invalidMarker
    else
      let realGroupSize := encGroupSize - padCount
      let acc2 := acc ++ group.take realGroupSize
      if padCount ≠ 0 then
        if (group.drop realGroupSize).all (fun x => x = encPad) then
          .ok (b.drop (encGroupSize + 1), acc2)
        else .error .invalidPadding
      else decodeBytesLoop (b.drop (encGroupSize + 1)) acc2
termination_by b.length
decreasing_by
  simp only [List.length_drop]
  omega

/-- Modelled from the spec: `codec.DecodeBytes` (the scratch buffer of
the Go version only reuses an allocation and starts empty). -/
def decodeBytes (b : List Nat) : Except DecErr (List Nat × List Nat) :=
  decodeBytesLoop b []

/-- Modelled from the spec: `codec.EncodedBytesLength` — the length of
`encodeBytes` on data of length `dataLen`: one 9-byte block per started
8-byte group plus the final padded block. -/
def EncodedBytesLength (dataLen : Nat) : Nat :=
  (dataLen / encGroupSize + 1) * (encGroupSize + 1)

/-- Models `minEncodedKeyLen = codec.EncodedBytesLength(0) + 16` from
the source. -/
def minEncodedKeyLen : Nat := EncodedBytesLength 0 + 16

/-- Big-endian bytes of a 64-bit value, modelling
`binary.BigEndian.PutUint64`. -/
def beBytes8 (n : Nat) : List Nat :=
  [n / 2 ^ 56 % 256, n / 2 ^ 48 % 256, n / 2 ^ 40 % 256, n / 2 ^ 32 % 256,
   n / 2 ^ 24 % 256, n / 2 ^ 16 % 256, n / 2 ^ 8 % 256, n % 256]

/-- Value of a big-endian byte string, modelling
`binary.BigEndian.Uint64` on its 8-byte argument. -/
def beVal (l : List Nat) : Nat := l.foldl (fun acc d => acc * 256 + d) 0

/-- Models `EncodeKeySuffix` from the source: the self-delimiting
encoding of `key` followed by 8 big-endian bytes of `rowID` and 8
big-endian bytes of `offset`.  The Go `rowID`/`offset` are signed
64-bit values written as `uint64(·)`; here they are the 64-bit
patterns, natural numbers below `2 ^ 64`.  The `buf` argument of the Go
version only reuses an allocation and does not affect the returned
bytes. -/
def EncodeKeySuffix (key : List Nat) (rowID offset : Nat) : List Nat :=
  encodeBytes key ++ beBytes8 rowID ++ beBytes8 offset

/-- Models `DecodeKeySuffix` from the source: reject inputs shorter
than `minEncodedKeyLen`, decode the self-delimiting key from everything
but the last 16 bytes, and read `rowID` and `offset` big-endian from
the last 16 bytes. -/
def DecodeKeySuffix (data : List Nat) : Except DecErr (List Nat × Nat × Nat) :=
  if data.length < minEncodedKeyLen then .error .shortInput
  else
    match decodeBytes (data.take (data.length - 16)) with
    | .error e => .error e
    | .ok (_, key) =>
        let suffix := data.drop (data.length - 16)
        .ok (key, beVal (suffix.take 8), beVal (suffix.drop 8))

/-! Unfolding lemmas for the codec. -/

theorem encodeBytes_ge (k : List Nat) (h : 8 ≤ k.length) :
    encodeBytes k = k.take 8 ++ 255 :: encodeBytes (k.drop 8) := by
  rw [encodeBytes]
  simp only [encGroupSize, encMarker]
  rw [dif_pos h]

theorem encodeBytes_low (k : List Nat) (h : k.length < 8) :
    encodeBytes k =
      k ++ List.replicate (8 - k.length) 0 ++ [255 - (8 - k.length)] := by
  rw [encodeBytes]
  simp only [encGroupSize, encMarker, encPad]
  rw [dif_neg (by omega)]

theorem decodeBytesLoop_block (g : List Nat) (hg : g.length = 8) (m : Nat)
    (rest acc : List Nat) :
    decodeBytesLoop (g ++ m :: rest) acc =
      if 8 < 255 - m then Except.error DecErr.invalidMarker
      else if 255 - m ≠ 0 then
        if (g.drop (8 - (255 - m))).all (fun x => x = 0) then
          Except.ok (rest, acc ++ g.take (8 - (255 - m)))
        else Except.error DecErr.invalidPadding
      else decodeBytesLoop rest (acc ++ g.take (8 - (255 - m))) := by
  have hlen : (g ++ m :: rest).length = 9 + rest.length := by
    simp [hg]
    omega
  have htake : (g ++ m :: rest).take 8 = g := by
    rw [← hg]
    exact List.take_left g (m :: rest)
  have hdropm : (g ++ m :: rest).drop 8 = m :: rest := by
    rw [← hg]
    exact List.drop_left g (m :: rest)
  have hdrop : (g ++ m :: rest).drop 9 = rest := by
    have hsplit : g ++ m :: rest = (g ++ [m]) ++ rest := by simp
    rw [hsplit]
    have h9 : (g ++ [m]).length = 9 := by simp [hg]
    rw [← h9, List.drop_left]
  rw [decodeBytesLoop]
  rw [dif_neg (by simp only [encGroupSize, hlen]; omega)]
  simp only [encGroupSize, encMarker, encPad, htake, hdropm, hdrop,
    List.headD_cons]

theorem decodeBytesLoop_cont (g : List Nat) (hg : g.length = 8)
    (rest acc : List Nat) :
    decodeBytesLoop (g ++ 255 :: rest) acc = decodeBytesLoop rest (acc ++ g) := by
  rw [decodeBytesLoop_block g hg 255 rest acc]
  have hstop : (255 : Nat) - 255 = 0 := rfl
  rw [hstop]
  rw [if_neg (by omega), if_neg (by omega)]
  have : g.take (8 - 0) = g := by
    apply List.take_of_length_le
    omega
  rw [this]

theorem decodeBytesLoop_term (d : List Nat) (p : Nat) (hd : d.length = 8 - p)
    (hp1 : 1 ≤ p) (hp8 : p ≤ 8) (rest acc : List Nat) :
    decodeBytesLoop ((d ++ List.replicate p 0) ++ (255 - p) :: rest) acc =
      .ok (rest, acc ++ d) := by
  have hg : (d ++ List.replicate p 0).length = 8 := by
    simp [hd]
    omega
  rw [decodeBytesLoop_block _ hg (255 - p) rest acc]
  have h255 : 255 - (255 - p) = p := by omega
  rw [h255]
  have hdropg : (d ++ List.replicate p 0).drop (8 - p) = List.replicate p 0 := by
    rw [← hd]
    exact List.drop_left _ _
  have htakeg : (d ++ List.replicate p 0).take (8 - p) = d := by
    rw [← hd]
    exact List.take_left _ _
  rw [if_neg (by omega), if_pos (by omega), hdropg, htakeg]
  rw [if_pos (by simp [List.all_eq_true, List.eq_of_mem_replicate])]

/-- Round trip of the block codec with an arbitrary trailing string:
decoding consumes exactly the encoding of `k` and leaves `rest`. -/
theorem decodeBytesLoop_encodeBytes (k rest acc : List Nat) :
    decodeBytesLoop (encodeBytes k ++ rest) acc = .ok (rest, acc ++ k) := by
  suffices H : ∀ n k rest acc, List.length k ≤ n →
      decodeBytesLoop (encodeBytes k ++ rest) acc = .ok (rest, acc ++ k) from
    H k.length k rest acc le_rfl
  intro n
  induction n with
  | zero =>
    intro k rest acc hk
    have hk0 : k = [] := by
      cases k with
      | nil => rfl
      | cons a l => simp at hk
    subst hk0
    rw [encodeBytes_low [] (by simp)]
    have := decodeBytesLoop_term [] 8 (by simp) (by omega) (by omega) rest acc
    simpa using this
  | succ n ih =>
    intro k rest acc hk
    by_cases h8 : 8 ≤ k.length
    · rw [encodeBytes_ge k h8]
      rw [List.append_assoc, List.cons_append]
      rw [decodeBytesLoop_cont (k.take 8) (by simp [List.length_take]; omega)]
      rw [ih (k.drop 8) rest (acc ++ k.take 8) (by simp [List.length_drop]; omega)]
      rw [List.append_assoc, List.take_append_drop]
    · rw [encodeBytes_low k (by omega)]
      have hterm := decodeBytesLoop_term k (8 - k.length) (by omega)
        (by omega) (by omega) rest acc
      simp only [List.append_assoc, List.cons_append, List.singleton_append]
        at hterm ⊢
      exact hterm

/-- Round trip of `decodeBytes` against `encodeBytes`. -/
theorem decodeBytes_encodeBytes (k rest : List Nat) :
    decodeBytes (encodeBytes k ++ rest) = .ok (rest, k) := by
  rw [decodeBytes, decodeBytesLoop_encodeBytes]
  rfl

theorem encodeBytes_length_ge (k : List Nat) : 9 ≤ (encodeBytes k).length := by
  by_cases h8 : 8 ≤ k.length
  · rw [encodeBytes_ge k h8]
    simp [List.length_take]
    omega
  · rw [encodeBytes_low k (by omega)]
    simp
    omega

theorem beBytes8_length (n : Nat) : (beBytes8 n).length = 8 := rfl

theorem beVal_beBytes8 (n : Nat) (h : n < 2 ^ 64) : beVal (beBytes8 n) = n := by
  simp only [beVal, beBytes8, List.foldl]
  omega

/-- Claim C2: for every byte string `k` and all 64-bit values `r` and
`o`, `DecodeKeySuffix` applied to the output of
`EncodeKeySuffix k r o` returns exactly `(k, r, o)` with no error. -/
theorem DecodeKeySuffix_EncodeKeySuffix (k : List Nat) (r o : Nat)
    (hr : r < 2 ^ 64) (ho : o < 2 ^ 64) :
    DecodeKeySuffix (EncodeKeySuffix k r o) = .ok (k, r, o) := by
  have hE := encodeBytes_length_ge k
  have hsuffix : (beBytes8 r ++ beBytes8 o).length = 16 := rfl
  rw [DecodeKeySuffix, EncodeKeySuffix, List.append_assoc]
  have hlen : (encodeBytes k ++ (beBytes8 r ++ beBytes8 o)).length
      = (encodeBytes k).length + 16 := by
    rw [List.length_append, hsuffix]
  rw [if_neg (by
    rw [hlen]
    simp only [minEncodedKeyLen, EncodedBytesLength, encGroupSize]
    omega)]
  have hsub : (encodeBytes k ++ (beBytes8 r ++ beBytes8 o)).length - 16
      = (encodeBytes k).length := by
    rw [hlen]
    omega
  rw [hsub, List.take_left, List.drop_left]
  have hdec : decodeBytes (encodeBytes k) = .ok ([], k) := by
    have h0 := decodeBytes_encodeBytes k []
    simpa using h0
  rw [hdec]
  have ht : (beBytes8 r ++ beBytes8 o).take 8 = beBytes8 r := by
    rw [← beBytes8_length r]
    exact List.take_left _ _
  have hd : (beBytes8 r ++ beBytes8 o).drop 8 = beBytes8 o := by
    rw [← beBytes8_length r]
    exact List.drop_left _ _
  simp only [ht, hd, beVal_beBytes8 r hr, beVal_beBytes8 o ho]

/-- Witness for claim C2 at a concrete input. -/
theorem DecodeKeySuffix_EncodeKeySuffix_witness :
    (5 : Nat) < 2 ^ 64 ∧ (7 : Nat) < 2 ^ 64 ∧
      DecodeKeySuffix (EncodeKeySuffix [1, 2, 3] 5 7) = .ok ([1, 2, 3], 5, 7) :=
  ⟨by norm_num, by norm_num,
    DecodeKeySuffix_EncodeKeySuffix [1, 2, 3] 5 7 (by norm_num) (by norm_num)⟩

/-! Lexicographic comparison helpers. -/

theorem bytesCmp_cons_self (a : Nat) (x y : List Nat) :
    bytesCmp (a :: x) (a :: y) = bytesCmp x y := by
  simp [bytesCmp]

theorem bytesCmp_append_left (p : List Nat) :
    ∀ x y, bytesCmp (p ++ x) (p ++ y) = bytesCmp x y := by
  induction p with
  | nil => intro x y; rfl
  | cons a t ih =>
    intro x y
    rw [List.cons_append, List.cons_append, bytesCmp_cons_self]
    exact ih x y

theorem bytesCmp_lt_append (a : List Nat) :
    ∀ b x y, bytesCmp a b = .lt → a.length = b.length →
      bytesCmp (a ++ x) (b ++ y) = .lt := by
  induction a with
  | nil =>
    intro b x y hcmp hlen
    cases b with
    | nil => simp [bytesCmp] at hcmp
    | cons c cs => simp at hlen
  | cons d t ih =>
    intro b x y hcmp hlen
    cases b with
    | nil => simp at hlen
    | cons e u =>
      by_cases hde : d < e
      · simp [bytesCmp, hde]
      · by_cases hed : e < d
        · simp [bytesCmp, hde, hed] at hcmp
        · have hd : d = e := by omega
          subst hd
          rw [bytesCmp_cons_self] at hcmp
          rw [List.cons_append, List.cons_append, bytesCmp_cons_self]
          exact ih u x y hcmp (by simpa using hlen)

theorem bytesCmp_eq_iff : ∀ a b : List Nat, bytesCmp a b = .eq ↔ a = b := by
  intro a
  induction a with
  | nil =>
    intro b
    cases b <;> simp [bytesCmp]
  | cons d t ih =>
    intro b
    cases b with
    | nil => simp [bytesCmp]
    | cons e u =>
      by_cases hde : d < e
      · simp [bytesCmp, hde]
        omega
      · by_cases hed : e < d
        · simp [bytesCmp, hde, hed]
          omega
        · have hd : d = e := by omega
          subst hd
          rw [bytesCmp_cons_self]
          simp [ih u]

theorem bytesCmp_self (a : List Nat) : bytesCmp a a = .eq :=
  (bytesCmp_eq_iff a a).mpr rfl

/-- A string strictly extending `p` compares greater than `p`. -/
theorem bytesCmp_extend_gt (p : List Nat) :
    ∀ d : List Nat, d ≠ [] → bytesCmp (p ++ d) p = .gt := by
  induction p with
  | nil =>
    intro d hd
    cases d with
    | nil => exact absurd rfl hd
    | cons c cs => rfl
  | cons a t ih =>
    intro d hd
    rw [List.cons_append, bytesCmp_cons_self]
    exact ih d hd

/-- The first block of the encoding: the key truncated to 8 bytes and
padded with zeros to exactly 8 bytes. -/
def padTo (m : Nat) (k : List Nat) : List Nat :=
  k.take m ++ List.replicate (m - k.length) 0

/-- The marker byte of the first block of the encoding. -/
def blockMarker (k : List Nat) : Nat :=
  if 8 ≤ k.length then 255 else 255 - (8 - k.length)

theorem padTo_length (m : Nat) (k : List Nat) : (padTo m k).length = m := by
  simp [padTo, List.length_take]
  omega

theorem padTo_zero (k : List Nat) : padTo 0 k = [] := by
  simp [padTo]

theorem padTo_nil (m : Nat) : padTo m [] = List.replicate m 0 := by
  simp [padTo]

theorem padTo_cons (m a : Nat) (l : List Nat) :
    padTo (m + 1) (a :: l) = a :: padTo m l := by
  simp [padTo, List.take_succ_cons, Nat.succ_sub_succ]

/-- Zero-padding to a common width preserves strict order or collapses
the two strings to the same padded block. -/
theorem padTo_cmp (m : Nat) :
    ∀ k1 k2 : List Nat, bytesCmp k1 k2 = .lt →
      bytesCmp (padTo m k1) (padTo m k2) = .lt ∨ padTo m k1 = padTo m k2 := by
  induction m with
  | zero =>
    intro k1 k2 _
    right
    rw [padTo_zero, padTo_zero]
  | succ m ih =>
    intro k1 k2 hcmp
    cases k1 with
    | nil =>
      cases k2 with
      | nil => simp [bytesCmp] at hcmp
      | cons b bs =>
        rw [padTo_nil, List.replicate_succ, padTo_cons]
        by_cases hb : 0 < b
        · left
          simp [bytesCmp, hb]
        · have hb0 : b = 0 := by omega
          subst hb0
          rw [bytesCmp_cons_self]
          cases bs with
          | nil =>
            right
            rw [padTo_nil]
          | cons c cs =>
            have h2 : bytesCmp [] (c :: cs) = .lt := rfl
            rcases ih [] (c :: cs) h2 with hlt | heq
            · left
              rw [← padTo_nil m]
              exact hlt
            · right
              rw [← padTo_nil m, heq]
    | cons a as =>
      cases k2 with
      | nil => simp [bytesCmp] at hcmp
      | cons b bs =>
        rw [padTo_cons, padTo_cons]
        by_cases hab : a < b
        · left
          simp [bytesCmp, hab]
        · by_cases hba : b < a
          · simp [bytesCmp, hab, hba] at hcmp
          · have hEq : a = b := by omega
            subst hEq
            rw [bytesCmp_cons_self] at hcmp ⊢
            rcases ih as bs hcmp with hlt | heq
            · left
              exact hlt
            · right
              rw [heq]

theorem padTo_eq_pref (k1 k2 : List Nat) (hle : k2.length ≤ k1.length)
    (h8 : k2.length < 8) (heq : padTo 8 k1 = padTo 8 k2) :
    k2 = k1.take k2.length := by
  have h := congrArg (List.take k2.length) heq
  have hL : (padTo 8 k1).take k2.length = k1.take k2.length := by
    rw [padTo]
    rw [List.take_append_of_le_length (by simp [List.length_take]; omega)]
    rw [List.take_take]
    rw [show min k2.length 8 = k2.length by omega]
  have hR : (padTo 8 k2).take k2.length = k2 := by
    rw [padTo]
    rw [List.take_append_of_le_length (by simp [List.length_take]; omega)]
    rw [List.take_take]
    rw [show min k2.length 8 = k2.length by omega]
    exact List.take_length k2
  rw [hL, hR] at h
  exact h.symm

theorem proper_pref_gt (k1 k2 : List Nat) (hk : k2 = k1.take k2.length)
    (hlt : k2.length < k1.length) : bytesCmp k1 k2 = .gt := by
  have hsplit : k1 = k2 ++ k1.drop k2.length := by
    conv_lhs => rw [← List.take_append_drop k2.length k1]
    rw [← hk]
  have hd : k1.drop k2.length ≠ [] := by
    have : 0 < (k1.drop k2.length).length := by
      simp [List.length_drop]
      omega
    exact List.ne_nil_of_length_pos this
  conv_lhs => rw [hsplit]
  exact bytesCmp_extend_gt k2 _ hd

/-- When the zero-padded first blocks agree but the keys compare
strictly, either the first-block markers compare strictly or both keys
fill the block and their tails compare strictly. -/
theorem padTo_eq_analysis (k1 k2 : List Nat) (hcmp : bytesCmp k1 k2 = .lt)
    (heq : padTo 8 k1 = padTo 8 k2) :
    blockMarker k1 < blockMarker k2 ∨
      (8 ≤ k1.length ∧ 8 ≤ k2.length ∧ bytesCmp (k1.drop 8) (k2.drop 8) = .lt) := by
  by_cases h1 : 8 ≤ k1.length
  · by_cases h2 : 8 ≤ k2.length
    · right
      have hp1 : padTo 8 k1 = k1.take 8 := by
        simp [padTo, show 8 - k1.length = 0 by omega]
      have hp2 : padTo 8 k2 = k2.take 8 := by
        simp [padTo, show 8 - k2.length = 0 by omega]
      have htake : k1.take 8 = k2.take 8 := by
        rw [hp1, hp2] at heq
        exact heq
      refine ⟨h1, h2, ?_⟩
      rw [← List.take_append_drop 8 k1, ← List.take_append_drop 8 k2,
        htake, bytesCmp_append_left] at hcmp
      exact hcmp
    · exfalso
      have hk := padTo_eq_pref k1 k2 (by omega) (by omega) heq
      have hgt := proper_pref_gt k1 k2 hk (by omega)
      rw [hgt] at hcmp
      exact absurd hcmp (by decide)
  · by_cases h2 : 8 ≤ k2.length
    · left
      simp [blockMarker, h1, h2]
      omega
    · rcases Nat.lt_trichotomy k1.length k2.length with hlt | heqlen | hgt
      · left
        simp [blockMarker, h1, h2]
        omega
      · exfalso
        have hk12 : k1 = k2 := by
          have h := heq
          rw [padTo, padTo, List.take_of_length_le (by omega),
            List.take_of_length_le (by omega), heqlen] at h
          exact (List.append_inj h heqlen).1
        rw [hk12, bytesCmp_self] at hcmp
        exact absurd hcmp (by decide)
      · exfalso
        have hk := padTo_eq_pref k1 k2 (by omega) (by omega) heq
        have hgt2 := proper_pref_gt k1 k2 hk (by omega)
        rw [hgt2] at hcmp
        exact absurd hcmp (by decide)

/-- The encoding of a key is its zero-padded first block, the marker of
that block, and the encoding of the remainder when the key fills the
block. -/
theorem encodeBytes_decomp (k : List Nat) :
    encodeBytes k = padTo 8 k ++ blockMarker k ::
      (if 8 ≤ k.length then encodeBytes (k.drop 8) else []) := by
  by_cases h8 : 8 ≤ k.length
  · rw [encodeBytes_ge k h8, if_pos h8]
    simp [padTo, blockMarker, if_pos h8, show 8 - k.length = 0 by omega]
  · rw [encodeBytes_low k (by omega), if_neg h8]
    rw [padTo, blockMarker, if_neg h8,
      List.take_of_length_le (by omega)]

/-- Core order preservation: a strict comparison of keys survives the
block encoding, whatever bytes follow the two encodings. -/
theorem encodeBytes_append_lt (k1 k2 s1 s2 : List Nat)
    (hcmp : bytesCmp k1 k2 = .lt) :
    bytesCmp (encodeBytes k1 ++ s1) (encodeBytes k2 ++ s2) = .lt := by
  suffices H : ∀ n k1 k2 s1 s2, List.length k1 ≤ n → bytesCmp k1 k2 = .lt →
      bytesCmp (encodeBytes k1 ++ s1) (encodeBytes k2 ++ s2) = .lt from
    H k1.length k1 k2 s1 s2 le_rfl hcmp
  intro n
  induction n using Nat.strong_induction_on with
  | _ n ih =>
    intro k1 k2 s1 s2 hn hcmp
    rw [encodeBytes_decomp k1, encodeBytes_decomp k2,
      List.append_assoc, List.append_assoc, List.cons_append, List.cons_append]
    rcases padTo_cmp 8 k1 k2 hcmp with hlt | heq
    · exact bytesCmp_lt_append _ _ _ _ hlt (by rw [padTo_length, padTo_length])
    · rw [heq, bytesCmp_append_left]
      rcases padTo_eq_analysis k1 k2 hcmp heq with hm | ⟨h81, h82, hd⟩
      · simp [bytesCmp, hm]
      · have hmeq : blockMarker k1 = blockMarker k2 := by
          simp [blockMarker, h81, h82]
        rw [hmeq, bytesCmp_cons_self, if_pos h81, if_pos h82]
        have hrec : (k1.drop 8).length < n := by
          simp [List.length_drop]
          omega
        exact ih (k1.drop 8).length hrec (k1.drop 8) (k2.drop 8) s1 s2
          le_rfl hd

/-! Big-endian value comparison. -/

theorem beVal_foldl (l : List Nat) :
    ∀ a, l.foldl (fun acc d => acc * 256 + d) a = a * 256 ^ l.length + beVal l := by
  induction l with
  | nil =>
    intro a
    simp [beVal]
  | cons d t ih =>
    intro a
    simp only [List.foldl_cons, List.length_cons]
    rw [ih (a * 256 + d)]
    have h0 : beVal (d :: t) = (0 * 256 + d) * 256 ^ t.length + beVal t := by
      simp only [beVal, List.foldl_cons]
      rw [ih (0 * 256 + d)]
      rfl
    rw [show beVal (d :: t) = d * 256 ^ t.length + beVal t by simpa using h0]
    ring

theorem beVal_cons (d : Nat) (t : List Nat) :
    beVal (d :: t) = d * 256 ^ t.length + beVal t := by
  simp only [beVal, List.foldl_cons]
  have h := beVal_foldl t (0 * 256 + d)
  simpa [beVal] using h

theorem beVal_lt_pow (l : List Nat) (h : ∀ x ∈ l, x < 256) :
    beVal l < 256 ^ l.length := by
  induction l with
  | nil => simp [beVal]
  | cons d t ih =>
    rw [beVal_cons, List.length_cons]
    have hd : d < 256 := h d (by simp)
    have ht := ih (fun x hx => h x (by simp [hx]))
    have h2 : d * 256 ^ t.length + 256 ^ t.length = (d + 1) * 256 ^ t.length := by
      ring
    have h3 : (d + 1) * 256 ^ t.length ≤ 256 * 256 ^ t.length :=
      mul_le_mul_right' (by omega) _
    have h4 : 256 * 256 ^ t.length = 256 ^ (t.length + 1) := by
      ring
    omega

/-- Equal-length byte strings compare as their big-endian values, with
any tails acting as tie break. -/
theorem bytesCmp_beVal (a : List Nat) :
    ∀ b x y : List Nat, a.length = b.length →
      (∀ i ∈ a, i < 256) → (∀ i ∈ b, i < 256) →
      bytesCmp (a ++ x) (b ++ y) =
        (if beVal a < beVal b then .lt
         else if beVal b < beVal a then .gt else bytesCmp x y) := by
  induction a with
  | nil =>
    intro b x y hlen _ _
    have hb : b = [] := by
      cases b with
      | nil => rfl
      | cons e u => simp at hlen
    subst hb
    simp [beVal]
  | cons d t ih =>
    intro b x y hlen ha hb
    cases b with
    | nil => simp at hlen
    | cons e u =>
      have hlen2 : t.length = u.length := by simpa using hlen
      have hd : d < 256 := ha d (by simp)
      have he : e < 256 := hb e (by simp)
      have hvt := beVal_lt_pow t (fun i hi => ha i (by simp [hi]))
      have hvu := beVal_lt_pow u (fun i hi => hb i (by simp [hi]))
      rw [List.cons_append, List.cons_append]
      have hBt : beVal (d :: t) = d * 256 ^ u.length + beVal t := by
        rw [beVal_cons, hlen2]
      have hBu : beVal (e :: u) = e * 256 ^ u.length + beVal u := beVal_cons e u
      have hvt2 : beVal t < 256 ^ u.length := by
        rw [← hlen2]
        exact hvt
      by_cases hde : d < e
      · have hlt : beVal (d :: t) < beVal (e :: u) := by
          rw [hBt, hBu]
          have s2 : d * 256 ^ u.length + 256 ^ u.length = (d + 1) * 256 ^ u.length := by
            ring
          have s3 : (d + 1) * 256 ^ u.length ≤ e * 256 ^ u.length :=
            mul_le_mul_right' (by omega) _
          omega
        rw [if_pos hlt]
        simp [bytesCmp, hde]
      · by_cases hed : e < d
        · have hgt : beVal (e :: u) < beVal (d :: t) := by
            rw [hBt, hBu]
            have s2 : e * 256 ^ u.length + 256 ^ u.length = (e + 1) * 256 ^ u.length := by
              ring
            have s3 : (e + 1) * 256 ^ u.length ≤ d * 256 ^ u.length :=
              mul_le_mul_right' (by omega) _
            omega
          rw [if_neg (by omega), if_pos hgt]
          simp [bytesCmp, hde, hed]
        · have hdeq : d = e := by omega
          subst hdeq
          rw [bytesCmp_cons_self]
          rw [ih u x y hlen2 (fun i hi => ha i (by simp [hi]))
            (fun i hi => hb i (by simp [hi]))]
          by_cases h1 : beVal t < beVal u
          · rw [if_pos h1, if_pos (by rw [hBt, hBu]; omega)]
          · by_cases h2 : beVal u < beVal t
            · rw [if_neg h1, if_pos h2, if_neg (by rw [hBt, hBu]; omega),
                if_pos (by rw [hBt, hBu]; omega)]
            · rw [if_neg h1, if_neg h2, if_neg (by rw [hBt, hBu]; omega),
                if_neg (by rw [hBt, hBu]; omega)]

theorem beBytes8_bytes (n : Nat) : ∀ x ∈ beBytes8 n, x < 256 := by
  intro x hx
  simp [beBytes8] at hx
  rcases hx with h | h | h | h | h | h | h | h <;> omega

theorem encodeKeySuffix_suffix_cmp (k : List Nat) (r1 o1 r2 o2 : Nat)
    (hr1 : r1 < 2 ^ 64) (ho1 : o1 < 2 ^ 64) (hr2 : r2 < 2 ^ 64)
    (ho2 : o2 < 2 ^ 64) :
    bytesCmp (EncodeKeySuffix k r1 o1) (EncodeKeySuffix k r2 o2) = .lt ↔
      (r1 < r2 ∨ (r1 = r2 ∧ o1 < o2)) := by
  rw [EncodeKeySuffix, EncodeKeySuffix, List.append_assoc, List.append_assoc,
    bytesCmp_append_left]
  rw [bytesCmp_beVal (beBytes8 r1) (beBytes8 r2) _ _
    (by rw [beBytes8_length, beBytes8_length]) (beBytes8_bytes r1)
    (beBytes8_bytes r2)]
  rw [beVal_beBytes8 r1 hr1, beVal_beBytes8 r2 hr2]
  have hinner : bytesCmp (beBytes8 o1) (beBytes8 o2) =
      (if o1 < o2 then Ordering.lt
       else if o2 < o1 then Ordering.gt else bytesCmp ([] : List Nat) []) := by
    have h := bytesCmp_beVal (beBytes8 o1) (beBytes8 o2) [] []
      (by rw [beBytes8_length, beBytes8_length]) (beBytes8_bytes o1)
      (beBytes8_bytes o2)
    rw [List.append_nil, List.append_nil] at h
    rw [h, beVal_beBytes8 o1 ho1, beVal_beBytes8 o2 ho2]
  rw [hinner]
  by_cases h1 : r1 < r2
  · simp [h1]
  · by_cases h2 : r2 < r1
    · simp [h1, h2]
      omega
    · have he : r1 = r2 := by omega
      subst he
      by_cases h3 : o1 < o2
      · simp [h1, h2, h3]
      · by_cases h4 : o2 < o1
        · simp [h1, h2, h3, h4]
        · simp [h1, h2, h3, h4, bytesCmp]

/-- Claim C3: for user keys `k1 < k2` in byte order the full encodings
compare strictly below whatever the suffixes are, and for equal user
keys the encodings compare exactly as the `(rowID, offset)` pairs taken
as unsigned big-endian values. -/
theorem EncodeKeySuffix_order (k1 k2 k : List Nat) (r1 o1 r2 o2 : Nat)
    (hr1 : r1 < 2 ^ 64) (ho1 : o1 < 2 ^ 64) (hr2 : r2 < 2 ^ 64)
    (ho2 : o2 < 2 ^ 64) :
    (bytesCmp k1 k2 = .lt →
      bytesCmp (EncodeKeySuffix k1 r1 o1) (EncodeKeySuffix k2 r2 o2) = .lt) ∧
    (bytesCmp (EncodeKeySuffix k r1 o1) (EncodeKeySuffix k r2 o2) = .lt ↔
      (r1 < r2 ∨ (r1 = r2 ∧ o1 < o2))) := by
  constructor
  · intro h
    rw [EncodeKeySuffix, EncodeKeySuffix, List.append_assoc, List.append_assoc]
    exact encodeBytes_append_lt _ _ _ _ h
  · exact encodeKeySuffix_suffix_cmp k r1 o1 r2 o2 hr1 ho1 hr2 ho2

/-- Witness for claim C3 at a concrete input. -/
theorem EncodeKeySuffix_order_witness :
    (bytesCmp [0] [1] = .lt →
      bytesCmp (EncodeKeySuffix [0] 3 4) (EncodeKeySuffix [1] 5 6) = .lt) ∧
    (bytesCmp (EncodeKeySuffix [2] 3 4) (EncodeKeySuffix [2] 5 6) = .lt ↔
      ((3 : Nat) < 5 ∨ ((3 : Nat) = 5 ∧ (4 : Nat) < 6))) :=
  EncodeKeySuffix_order [0] [1] [2] 3 4 5 6 (by norm_num) (by norm_num)
    (by norm_num) (by norm_num)

/-! Characterisation of decoding success and failure. -/

theorem decodeBytesLoop_no_short :
    ∀ (n : Nat) (b acc : List Nat), b.length ≤ n →
      decodeBytesLoop b acc ≠ .error .shortInput := by
  intro n
  induction n using Nat.strong_induction_on with
  | _ n ih =>
    intro b acc hn
    rw [decodeBytesLoop]
    split
    · simp
    · next h =>
      dsimp only
      split
      · simp
      · split
        · split
          · simp
          · simp
        · apply ih (b.drop (encGroupSize + 1)).length
          · simp only [List.length_drop, encGroupSize] at h ⊢
            omega
          · exact le_rfl

/-- If the block-decoding loop succeeds, the input is the encoding of
the decoded key followed by the remaining bytes. -/
theorem decodeBytesLoop_ok_decomp :
    ∀ (n : Nat) (b acc rest out : List Nat), b.length ≤ n →
      (∀ x ∈ b, x < 256) →
      decodeBytesLoop b acc = .ok (rest, out) →
      ∃ k, out = acc ++ k ∧ b = encodeBytes k ++ rest := by
  intro n
  induction n using Nat.strong_induction_on with
  | _ n ih =>
    intro b acc rest out hn hbytes hok
    by_cases hlen : b.length < 9
    · rw [decodeBytesLoop, dif_pos (by simp [encGroupSize]; omega)] at hok
      exact absurd hok (by simp)
    · obtain ⟨m, t, hmt⟩ : ∃ m t, b.drop 8 = m :: t := by
        cases hds : b.drop 8 with
        | nil =>
          have := congrArg List.length hds
          simp [List.length_drop] at this
          omega
        | cons m t => exact ⟨m, t, rfl⟩
      have ht : t = b.drop 9 := by
        have h1 : (b.drop 8).tail = b.drop 9 := by
          rw [List.tail_drop]
        rw [hmt] at h1
        simpa using h1
      have hb : b = b.take 8 ++ m :: t := by
        conv_lhs => rw [← List.take_append_drop 8 b]
        rw [hmt]
      have hg8 : (b.take 8).length = 8 := by
        simp [List.length_take]
        omega
      have hm256 : m < 256 := by
        apply hbytes
        rw [hb]
        simp
      rw [hb, decodeBytesLoop_block (b.take 8) hg8 m t acc] at hok
      by_cases hmark : 8 < 255 - m
      · rw [if_pos hmark] at hok
        exact absurd hok (by simp)
      · rw [if_neg hmark] at hok
        by_cases hstop : 255 - m ≠ 0
        · rw [if_pos hstop] at hok
          by_cases hpad : ((b.take 8).drop (8 - (255 - m))).all
              (fun x => x = 0) = true
          · rw [if_pos hpad] at hok
            simp only [Except.ok.injEq, Prod.mk.injEq] at hok
            obtain ⟨hrest, hout⟩ := hok
            refine ⟨(b.take 8).take (8 - (255 - m)), hout.symm, ?_⟩
            have hklen : ((b.take 8).take (8 - (255 - m))).length
                = 8 - (255 - m) := by
              simp [List.length_take]
              omega
            have hdroppad : (b.take 8).drop (8 - (255 - m))
                = List.replicate (8 - (8 - (255 - m))) 0 := by
              rw [List.eq_replicate_iff]
              refine ⟨by simp [List.length_drop]; omega, ?_⟩
              intro x hx
              have := List.all_eq_true.mp hpad x hx
              simpa using this
            have hgrp : b.take 8 = (b.take 8).take (8 - (255 - m)) ++
                List.replicate (8 - (8 - (255 - m))) 0 := by
              conv_lhs => rw [← List.take_append_drop (8 - (255 - m)) (b.take 8)]
              rw [hdroppad]
            have hmval : 255 - (8 - (8 - (255 - m))) = m := by omega
            rw [encodeBytes_low _ (by rw [hklen]; omega), hklen, hmval, ← hrest]
            conv_lhs => rw [hb]
            conv_lhs => rw [hgrp]
            simp [List.append_assoc]
          · rw [if_neg hpad] at hok
            exact absurd hok (by simp)
        · rw [if_neg hstop] at hok
          have hm255 : m = 255 := by omega
          have htb : t.length < n := by
            rw [ht]
            simp only [List.length_drop]
            omega
          obtain ⟨k0, hout0, ht0⟩ := ih t.length htb t
            (acc ++ (b.take 8).take (8 - (255 - m))) rest out le_rfl
            (fun x hx => hbytes x (by rw [hb]; simp [hx])) hok
          have htake8 : (b.take 8).take (8 - (255 - m)) = b.take 8 := by
            apply List.take_of_length_le
            rw [hg8]
            omega
          rw [htake8] at hout0
          refine ⟨b.take 8 ++ k0, by rw [hout0]; simp, ?_⟩
          rw [encodeBytes_ge _ (by simp [List.length_take]; omega)]
          have h1 : (b.take 8 ++ k0).take 8 = b.take 8 :=
            List.take_left' hg8
          have h2 : (b.take 8 ++ k0).drop 8 = k0 :=
            List.drop_left' hg8
          rw [h1, h2, List.append_assoc, List.cons_append, ← ht0, ← hm255]
          exact hb

/-- Claim C8 (amended): `DecodeKeySuffix` fails with the short-input
error exactly when the input is shorter than `minEncodedKeyLen`; an
input of sufficient length succeeds exactly when the bytes before the
16-byte suffix begin with a complete block-encoded key (otherwise the
failure is one of the corrupt-encoding errors: out-of-range marker,
nonzero padding byte, or bytes ending without a terminated block). -/
theorem DecodeKeySuffix_failure (data : List Nat)
    (hbytes : ∀ x ∈ data, x < 256) :
    (DecodeKeySuffix data = .error .shortInput ↔
      data.length < minEncodedKeyLen) ∧
    (minEncodedKeyLen ≤ data.length →
      ((∃ out, DecodeKeySuffix data = .ok out) ↔
        ∃ k rest, data.take (data.length - 16) = encodeBytes k ++ rest)) := by
  constructor
  · constructor
    · intro h
      by_contra hlen
      rw [DecodeKeySuffix, if_neg hlen] at h
      cases hdec : decodeBytes (data.take (data.length - 16)) with
      | error e =>
        rw [hdec] at h
        simp only [Except.error.injEq] at h
        rw [decodeBytes] at hdec
        subst h
        exact decodeBytesLoop_no_short (data.take (data.length - 16)).length
          _ [] le_rfl hdec
      | ok v =>
        rw [hdec] at h
        simp at h
    · intro hlen
      rw [DecodeKeySuffix, if_pos hlen]
  · intro hge
    rw [DecodeKeySuffix, if_neg (by omega)]
    constructor
    · rintro ⟨out, hout⟩
      cases hdec : decodeBytes (data.take (data.length - 16)) with
      | error e =>
        rw [hdec] at hout
        simp at hout
      | ok v =>
        obtain ⟨u, key⟩ := v
        have hpre : ∀ x ∈ data.take (data.length - 16), x < 256 :=
          fun x hx => hbytes x (List.take_subset _ _ hx)
        rw [decodeBytes] at hdec
        obtain ⟨k, _, hk2⟩ := decodeBytesLoop_ok_decomp
          (data.take (data.length - 16)).length _ [] u key le_rfl hpre hdec
        exact ⟨k, u, hk2⟩
    · rintro ⟨k, rest, hk⟩
      rw [hk, decodeBytes_encodeBytes k rest]
      exact ⟨_, rfl⟩

/-- Counterexample for claim C8 as stated: an input of exactly
`minEncodedKeyLen` bytes whose terminating block has a valid marker
(pad count 8) but a nonzero padding byte.  `DecodeKeySuffix` fails on
it although the input is not short and no marker is out of range, so
short input and invalid marker do not exhaust the failures. -/
theorem DecodeKeySuffix_failure_counterexample :
    DecodeKeySuffix ([1, 0, 0, 0, 0, 0, 0, 0, 247] ++ List.replicate 16 0)
        = .error .invalidPadding ∧
      ¬ (([1, 0, 0, 0, 0, 0, 0, 0, 247] ++ List.replicate 16 0) :
          List Nat).length < minEncodedKeyLen := by
  constructor
  · rw [DecodeKeySuffix, if_neg (by decide)]
    have h1 : (([1, 0, 0, 0, 0, 0, 0, 0, 247] ++ List.replicate 16 0) :
        List Nat).take
          ((([1, 0, 0, 0, 0, 0, 0, 0, 247] ++ List.replicate 16 0) :
            List Nat).length - 16)
        = [1, 0, 0, 0, 0, 0, 0, 0] ++ 247 :: [] := by decide
    rw [h1, decodeBytes,
      decodeBytesLoop_block [1, 0, 0, 0, 0, 0, 0, 0] (by decide) 247 [] []]
    norm_num
  · decide

/-- Witness for the amended claim C8 at a concrete input. -/
theorem DecodeKeySuffix_failure_witness :
    ((DecodeKeySuffix ([2, 0, 0, 0, 0, 0, 0, 0, 247] ++ List.replicate 16 0)
        = .error .shortInput) ↔
      (([2, 0, 0, 0, 0, 0, 0, 0, 247] ++ List.replicate 16 0) :
        List Nat).length < minEncodedKeyLen) ∧
    ((∃ out, DecodeKeySuffix
        ([2, 0, 0, 0, 0, 0, 0, 0, 247] ++ List.replicate 16 0) = .ok out) ↔
      ∃ k rest,
        (([2, 0, 0, 0, 0, 0, 0, 0, 247] ++ List.replicate 16 0) :
          List Nat).take
            ((([2, 0, 0, 0, 0, 0, 0, 0, 247] ++ List.replicate 16 0) :
              List Nat).length - 16) = encodeBytes k ++ rest) :=
  ⟨(DecodeKeySuffix_failure _ (by decide)).1,
    (DecodeKeySuffix_failure _ (by decide)).2 (by decide)⟩

/-! Models of the duplicate manager and the request planner. -/

/-- The error kinds a per-request worker can report. -/
inductive WorkerErr where
  | retryExceeded
  | storeFailed
deriving DecidableEq, Repr

/-- Models `common.OnceError.Set`: the first non-nil error sticks. -/
def onceSet (cur e : Option WorkerErr) : Option WorkerErr :=
  match cur with
  | some _ => cur
  | none => e

/-- The observable outcome of one `DuplicateTable` call. -/
structure DuplicateTableRun where
  returned : Option WorkerErr
  tableErr : Option WorkerErr
  cancelled : Bool
deriving DecidableEq, Repr

/-- Models `DuplicateTable` (source lines 160-190) after
`buildDuplicateRequests` and the decoder construction succeed:
`workerErrs` lists, in completion order, the `sendRequestToTiKV` result
of each spawned worker.  Every non-nil worker error is stored in the
shared `OnceError` and cancels the request context, but after
`wg.Wait()` the function executes `return nil` unconditionally — the
stored error is never consulted. -/
def DuplicateTable (workerErrs : List (Option WorkerErr)) :
    DuplicateTableRun :=
  let te := workerErrs.foldl onceSet none
  { returned := none
    tableErr := te
    cancelled := te.isSome }

/-- Schema states of an index descriptor (parser `model.SchemaState`). -/
inductive SchemaState where
  | statePublic
  | stateWriteOnly
  | stateDeleteOnly
  | stateNone
deriving DecidableEq, Repr

/-- The fields of `model.IndexInfo` the planner reads. -/
structure IndexInfo where
  id : Int
  state : SchemaState
deriving DecidableEq, Repr

/-- The fields of `model.TableInfo` the planner reads. -/
structure TableInfo where
  id : Int
  indices : List IndexInfo
deriving DecidableEq, Repr

/-- Endpoint of a planner key range.  The concrete bytes the table
codec would produce are irrelevant to the planner claims; the four
tagged endpoints keep the ranges distinguishable. -/
inductive PlanKey where
  | recordLow (tid : Int)
  | recordHigh (tid : Int)
  | indexLow (tid iid : Int)
  | indexHigh (tid iid : Int)
deriving DecidableEq, Repr

/-- A `kv.KeyRange` as the planner produces it. -/
structure KvRange where
  startKey : PlanKey
  endKey : PlanKey
deriving DecidableEq, Repr

/-- Modelled from the spec: `distsql.TableRangesToKVRanges` applied to
`ranger.FullIntRange(false)` for one (unpartitioned) table, whose
source is not under `src/` — exactly one KV range
`[encode(tableID, -inf), encode(tableID, +inf))` covering the
table-row key space. -/
def TableRangesToKVRanges (tableID : Int) : List KvRange :=
  [⟨.recordLow tableID, .recordHigh tableID⟩]

/-- Modelled from the spec: `distsql.IndexRangesToKVRanges` applied to
`ranger.FullRange()`, whose source is not under `src/` — exactly one
KV range covering the index key space; its error return does not fire
on the full range. -/
def IndexRangesToKVRanges (tableID indexID : Int) : List KvRange :=
  [⟨.indexLow tableID indexID, .indexHigh tableID indexID⟩]

/-- Models `DuplicateRequest`.  In lists of requests, `none` models a
nil `*DuplicateRequest` pointer. -/
structure DuplicateRequest where
  tableID : Int
  indexID : Int
  startKey : PlanKey
  endKey : PlanKey
  indexInfo : Option IndexInfo
deriving DecidableEq, Repr

/-- Models `buildTableRequest` (lines 564-578):
`reqs := make([]*DuplicateRequest, 1)` creates a slice already holding
one nil pointer and the loop appends one request per KV range after
it. -/
def buildTableRequest (tableID : Int) : List (Option DuplicateRequest) :=
  let keysRanges := TableRangesToKVRanges tableID
  let reqs : List (Option DuplicateRequest) := List.replicate 1 none
  reqs ++ keysRanges.map (fun r =>
    some ⟨tableID, 0, r.startKey, r.endKey, none⟩)

/-- Models `buildIndexRequest` (lines 580-598): the same
`make([]*DuplicateRequest, 1)` slip as `buildTableRequest`. -/
def buildIndexRequest (tableID : Int) (indexInfo : IndexInfo) :
    List (Option DuplicateRequest) :=
  let keysRanges := IndexRangesToKVRanges tableID indexInfo.id
  let reqs : List (Option DuplicateRequest) := List.replicate 1 none
  reqs ++ keysRanges.map (fun r =>
    some ⟨tableID, indexInfo.id, r.startKey, r.endKey, some indexInfo⟩)

/-- Models `buildDuplicateRequests` (lines 547-562): the table request
list followed by one index request list per index in the public
state. -/
def buildDuplicateRequests (tableInfo : TableInfo) :
    List (Option DuplicateRequest) :=
  buildTableRequest tableInfo.id ++
    (tableInfo.indices.filter (fun i => i.state = .statePublic)).flatMap
      (fun i => buildIndexRequest tableInfo.id i)

/-- A region as the manager sees it: its encoded `[startKey, endKey)`
bounds. -/
structure RegionInfo where
  startKey : List Nat
  endKey : List Nat
deriving DecidableEq, Repr

/-- Models one pass of the retry loop of `sendRequestToTiKV` under the
scenario of claim C5: every region's stream reports a region error and
re-scanning its range returns the region unchanged, so every region is
deferred.  `unfinishedRegions := make([]*split.RegionInfo,
len(regions))` starts as `len(regions)` nil entries (`none` here), and
the deferred regions are appended after them. -/
def passAllDeferred (regions : List (Option RegionInfo)) :
    List (Option RegionInfo) :=
  List.replicate regions.length none ++ regions

/-- Observable state of the retry loop after a bounded number of
iterations. -/
inductive SendLoopResult where
  | finished
  | retryExceeded
  | stillRunning
deriving DecidableEq, Repr

/-- Models the outer loop of `sendRequestToTiKV` (lines 202-313) under
the all-deferred scenario: break when no regions remain; return the
retry-exceeded error when `tryTimes > maxRetryTimes`; otherwise run a
pass and increment `tryTimes` only when the pass made no progress,
which the code detects by `len(unfinishedRegions) == len(regions)`.
`fuel` bounds how many iterations are unrolled; `stillRunning` means
the loop had not terminated within `fuel` iterations. -/
def sendLoopAllDeferred (maxRetryTimes : Nat) :
    Nat → List (Option RegionInfo) → Nat → SendLoopResult
  | 0, _, _ => .stillRunning
  | fuel + 1, regions, tryTimes =>
    if regions.length = 0 then .finished
    else if maxRetryTimes < tryTimes then .retryExceeded
    else
      let unfinished := passAllDeferred regions
      sendLoopAllDeferred maxRetryTimes fuel unfinished
        (if unfinished.length = regions.length then tryTimes + 1 else tryTimes)

/-- Models how the manager decodes a region bound:
`codec.DecodeBytes` with the error ignored, which leaves the bound
empty when decoding fails (e.g. on the empty end key of the last
region). -/
def decodeRegionKey (b : List Nat) : List Nat :=
  match decodeBytes b with
  | .ok (_, k) => k
  | .error _ => []

/-- Models the start-bound clamp of `sendRequestToTiKV` (lines
218-222): the decoded region start, replaced by `req.start` when the
encoded request start lies beyond the region start. -/
def clampStart (reqStart : List Nat) (regionStart : List Nat) : List Nat :=
  if bytesCmp (encodeBytes reqStart) regionStart = .gt then reqStart
  else decodeRegionKey regionStart

/-- Models the end-bound clamp of `sendRequestToTiKV` (lines 219-225):
the decoded region end, replaced by `req.end` when the region end is
empty (infinite) or beyond the encoded request end. -/
def clampEnd (reqEnd : List Nat) (regionEnd : List Nat) : List Nat :=
  if regionEnd.length = 0 ∨ bytesCmp (encodeBytes reqEnd) regionEnd = .lt then
    reqEnd
  else decodeRegionKey regionEnd

/-- One opened duplicate-detect stream: the region and the clamped
bounds passed to the `DuplicateDetectRequest`. -/
structure StreamReq where
  region : RegionInfo
  startKey : List Nat
  endKey : List Nat
deriving DecidableEq, Repr

/-- State of the stream-opening loop of one pass (lines 209-239):
`unfinished`, `waitingClients` and `watingRegions` are all created with
`make(..., len(regions))`, i.e. already populated with that many nil
entries. -/
structure OpenPassState where
  unfinished : List (Option RegionInfo)
  waitingClients : List (Option StreamReq)
  watingRegions : List (Option RegionInfo)
deriving DecidableEq, Repr

/-- Models the `for idx, region := range regions` stream-opening loop
of one pass: once `len(waitingClients) > regionConcurrency` the
remaining regions are deferred wholesale and the loop breaks; otherwise
the stream is opened on the clamped bounds.  `dialOk` abstracts whether
`getDuplicateStream` succeeds; on failure the region is re-fetched by
id and deferred (modelled as deferring the region itself). -/
def openLoop (regionConcurrency : Nat) (reqStart reqEnd : List Nat)
    (dialOk : RegionInfo → Bool) :
    List RegionInfo → OpenPassState → OpenPassState
  | [], st => st
  | region :: rs, st =>
    if regionConcurrency < st.waitingClients.length then
      { st with unfinished := st.unfinished ++ (region :: rs).map some }
    else
      let start := clampStart reqStart region.startKey
      let endK := clampEnd reqEnd region.endKey
      if dialOk region then
        openLoop regionConcurrency reqStart reqEnd dialOk rs
          { st with
            waitingClients := st.waitingClients ++ [some ⟨region, start, endK⟩]
            watingRegions := st.watingRegions ++ [some region] }
      else
        openLoop regionConcurrency reqStart reqEnd dialOk rs
          { st with unfinished := st.unfinished ++ [some region] }

/-- Models the start of one pass of `sendRequestToTiKV`: the three
slices pre-populated with `len(regions)` nils, then the opening loop
over the regions of the pass. -/
def openPass (regionConcurrency : Nat) (reqStart reqEnd : List Nat)
    (dialOk : RegionInfo → Bool) (regions : List RegionInfo) :
    OpenPassState :=
  openLoop regionConcurrency reqStart reqEnd dialOk regions
    ⟨List.replicate regions.length none, List.replicate regions.length none,
      List.replicate regions.length none⟩

/-- Outcome marker for modelled Go code: `panicked` models an
out-of-range slice index, `fuelOut` means the modelled loop had not
finished within the unrolled number of steps. -/
inductive RunOutcome (α : Type) where
  | ok (a : α)
  | panicked
  | fuelOut
deriving DecidableEq

/-- Models the inner per-region batching loop of `GetValues` (lines
391-399): while `endIdx < l`, a handle whose encoded key is below the
region's end key is appended to `batch` — and `endIdx` is never
incremented. -/
def innerBatch (handles : List (List Nat)) (regionEnd : List Nat) :
    Nat → Nat → List (List Nat) → RunOutcome (Nat × List (List Nat))
  | 0, _, _ => .fuelOut
  | fuel + 1, endIdx, batch =>
    if endIdx < handles.length then
      if bytesCmp (encodeBytes (handles.getD endIdx [])) regionEnd = .lt then
        innerBatch handles regionEnd fuel endIdx
          (batch ++ [handles.getD endIdx []])
      else .ok (endIdx, batch)
    else .ok (endIdx, batch)

/-- Models `sort.Slice(handles, bytes.Compare < 0)`: the handle list in
ascending byte order (insertion sort; the Go sort is in place and
unstable, which is observationally the same for a list of keys). -/
def insertSorted (x : List Nat) : List (List Nat) → List (List Nat)
  | [] => [x]
  | y :: ys => if bytesCmp x y = .gt then y :: insertSorted x ys
    else x :: y :: ys

/-- Ascending sort of the handle list. -/
def sortHandles : List (List Nat) → List (List Nat)
  | [] => []
  | x :: xs => insertSorted x (sortHandles xs)

/-- Mutable state of the region loop of `GetValues`. -/
structure GetValuesState where
  startIdx : Nat
  batch : List (List Nat)
  retryHandles : List (List Nat)
deriving DecidableEq

/-- Models the per-region loop of `GetValues` (lines 386-405): a region
whose end key is at or below the first pending handle's encoded key is
skipped; otherwise the inner batching loop runs, the batch goes to the
region (`bgOk` abstracts whether that `getValuesFromRegion` call
succeeds; on failure the batch is appended to `retryHandles`), and the
loop continues with `startIdx = endIdx`.  Reading `handles[startIdx]`
out of range is a Go panic, modelled as `panicked`. -/
def getValuesLoop (bgOk : RegionInfo → Bool) (handles : List (List Nat))
    (fuel : Nat) : List RegionInfo → GetValuesState →
      RunOutcome (List (List Nat))
  | [], st => .ok st.retryHandles
  | region :: rs, st =>
    if st.startIdx < handles.length then
      if ¬ bytesCmp (encodeBytes (handles.getD st.startIdx []))
          region.endKey = .lt then
        getValuesLoop bgOk handles fuel rs st
      else
        match innerBatch handles region.endKey fuel st.startIdx st.batch with
        | .ok (endIdx, batch) =>
          getValuesLoop bgOk handles fuel rs
            { startIdx := endIdx
              batch := batch
              retryHandles :=
                if bgOk region then st.retryHandles
                else st.retryHandles ++ batch }
        | .panicked => .panicked
        | .fuelOut => .fuelOut
    else .panicked

/-- Models `GetValues` (lines 368-407): `retryHandles` starts as
`make([][]byte, 1)` — a single nil entry (`[]` here); the handle list
is sorted in place; `handles[0]` is read with no emptiness guard; the
paged region scan is abstracted (`none` models a scan error, upon which
the Go code returns the sorted handles); `batch` starts as
`make([][]byte, len(handles))` — `len(handles)` nil entries. -/
def GetValues (fuel : Nat) (handles : List (List Nat))
    (scan : Option (List RegionInfo)) (bgOk : RegionInfo → Bool) :
    RunOutcome (List (List Nat)) :=
  let sorted := sortHandles handles
  if sorted.length = 0 then .panicked
  else
    match scan with
    | none => .ok sorted
    | some regions =>
      getValuesLoop bgOk sorted fuel regions
        ⟨0, List.replicate handles.length [], [[]]⟩

/-- Models the flush of `indexHandles` in `sendRequestToTiKV` (lines
241-248): `GetValues` is called only when the pending list is
non-empty; a non-empty result replaces the list, an empty one truncates
it. -/
def flushIndexHandles (fuel : Nat) (indexHandles : List (List Nat))
    (scan : Option (List RegionInfo)) (bgOk : RegionInfo → Bool) :
    RunOutcome (List (List Nat)) :=
  if 0 < indexHandles.length then
    match GetValues fuel indexHandles scan bgOk with
    | .ok handles => .ok (if 0 < handles.length then handles else [])
    | .panicked => .panicked
    | .fuelOut => .fuelOut
  else .ok indexHandles

/-! Claim theorems about the manager and planner models. -/

/-- Claim C1 (code bug in the source): `DuplicateTable` returns nil
unconditionally.  A worker error is recorded in the `OnceError` and
cancels the peers, but the recorded error is never returned, so the
returned value is `none` even when a worker reported a fatal error. -/
theorem DuplicateTable_returns_nil :
    (∀ workerErrs, (DuplicateTable workerErrs).returned = none) ∧
      (DuplicateTable [some .retryExceeded]).tableErr =
        some .retryExceeded ∧
      (DuplicateTable [some .retryExceeded]).cancelled = true :=
  ⟨fun _ => rfl, rfl, rfl⟩

/-- Claim C4 (code bug in the source): for a table with no partitions
and no indexes the planner should emit exactly `p + k = 1` request, but
`make([]*DuplicateRequest, 1)` followed by `append` makes it emit two
entries, the first of which is a nil pointer; in general it emits
`2 + 2k` entries instead of `1 + k`. -/
theorem buildDuplicateRequests_miscount :
    (buildDuplicateRequests ⟨1, []⟩).length = 2 ∧
      (buildDuplicateRequests ⟨1, []⟩).head? = some none ∧
      ∀ tbl : TableInfo, (buildDuplicateRequests tbl).length =
        2 + 2 * (tbl.indices.filter (fun i => i.state = .statePublic)).length := by
  refine ⟨rfl, rfl, ?_⟩
  intro tbl
  rw [buildDuplicateRequests, List.length_append]
  have h1 : (buildTableRequest tbl.id).length = 2 := rfl
  have h2 : ∀ l : List IndexInfo,
      (l.flatMap (fun i => buildIndexRequest tbl.id i)).length = 2 * l.length := by
    intro l
    induction l with
    | nil => rfl
    | cons a t ih =>
      rw [List.flatMap_cons, List.length_append, ih]
      have ha : (buildIndexRequest tbl.id a).length = 2 := rfl
      rw [ha]
      simp [List.length_cons]
      ring
  rw [h1, h2]

theorem sendLoopAllDeferred_stillRunning (fuel : Nat) :
    ∀ (maxRetryTimes : Nat) (regions : List (Option RegionInfo)),
      regions ≠ [] →
      sendLoopAllDeferred maxRetryTimes fuel regions 0 = .stillRunning := by
  induction fuel with
  | zero =>
    intro mx regions _
    rfl
  | succ fuel ih =>
    intro mx regions h
    have hlen : ¬ regions.length = 0 := by
      intro hc
      exact h (List.length_eq_zero.mp hc)
    simp only [sendLoopAllDeferred]
    rw [if_neg hlen, if_neg (by omega)]
    have hne : ¬ (passAllDeferred regions).length = regions.length := by
      simp only [passAllDeferred, List.length_append, List.length_replicate]
      omega
    rw [if_neg hne]
    apply ih
    intro hc
    have := congrArg List.length hc
    simp only [passAllDeferred, List.length_append, List.length_replicate,
      List.length_nil] at this
    omega

/-- Claim C5 (code bug in the source): a request whose regions are all
deferred on every pass never terminates, and in particular never
returns the retry-exceeded error, whatever `maxRetryTimes` is.
`unfinishedRegions` starts with `len(regions)` nil entries, so after an
all-deferred pass its length is `2·len(regions)`, the no-progress test
`len(unfinishedRegions) == len(regions)` fails, and `tryTimes` is never
incremented. -/
theorem sendRequestToTiKV_never_retryExceeded (maxRetryTimes fuel : Nat) :
    sendLoopAllDeferred maxRetryTimes fuel [some ⟨[], []⟩] 0 =
      .stillRunning :=
  sendLoopAllDeferred_stillRunning fuel maxRetryTimes _ (by simp)

/-- Claim C6 (code bug in the source): with `regionConcurrency = 2` and
two regions the pass opens only one stream and defers the second region
even though the cap admits both; `waitingClients` starts with
`len(regions)` nil entries, so the cap check counts them as open
streams. -/
theorem openPass_defers_within_cap :
    ((openPass 2 [0] [9] (fun _ => true)
        [⟨[0], [1]⟩, ⟨[1], [2]⟩]).waitingClients.countP
          (fun c => c.isSome)) = 1 ∧
      some (⟨[1], [2]⟩ : RegionInfo) ∈
        (openPass 2 [0] [9] (fun _ => true)
          [⟨[0], [1]⟩, ⟨[1], [2]⟩]).unfinished := by
  constructor
  · rfl
  · decide

theorem innerBatch_stuck (handles : List (List Nat)) (regionEnd : List Nat)
    (endIdx : Nat) (hlt : endIdx < handles.length)
    (hcmp : bytesCmp (encodeBytes (handles.getD endIdx [])) regionEnd = .lt) :
    ∀ fuel batch, innerBatch handles regionEnd fuel endIdx batch = .fuelOut := by
  intro fuel
  induction fuel with
  | zero =>
    intro batch
    rfl
  | succ fuel ih =>
    intro batch
    simp only [innerBatch]
    rw [if_pos hlt, if_pos hcmp]
    exact ih _

theorem cmp_enc_zero_lt : bytesCmp (encodeBytes [0]) [255] = Ordering.lt := by
  rw [encodeBytes_low [0] (by norm_num)]
  decide

/-- Claim C9 (code bug in the source): the inner per-region batching
loop of `GetValues` never increments `endIdx`, so on a handle whose
encoded key lies below the region's end key it runs forever — for every
amount of fuel it is still running. -/
theorem innerBatch_nonterminating (fuel : Nat) (batch : List (List Nat)) :
    innerBatch [[0]] [255] fuel 0 batch = .fuelOut :=
  innerBatch_stuck [[0]] [255] 0 (by norm_num) cmp_enc_zero_lt fuel batch

/-- Claim C7 (code bug in the source): on a non-empty handle list whose
first handle falls inside a region, `GetValues` enters the inner
batching loop and never returns, so it sends no `BatchGet` and returns
no residual — for every amount of fuel it is still running. -/
theorem GetValues_nonterminating (fuel : Nat) :
    GetValues fuel [[0]] (some [⟨[0], [255]⟩]) (fun _ => true) = .fuelOut := by
  have hsort : sortHandles [[0]] = [[0]] := rfl
  simp only [GetValues, hsort]
  rw [if_neg (by norm_num)]
  simp only [getValuesLoop]
  rw [if_pos (by norm_num)]
  have hgetD : (([[0]] : List (List Nat)).getD 0 []) = [0] := rfl
  rw [if_neg (by rw [hgetD, cmp_enc_zero_lt]; simp)]
  rw [innerBatch_stuck [[0]] [255] 0 (by norm_num) cmp_enc_zero_lt fuel _]

/-- Claim C10 (amended): `GetValues` reads `handles[0]` with no
emptiness guard and so panics on an empty handle list; its only caller
in `sendRequestToTiKV` flushes the pending list under a
`len(indexHandles) > 0` guard, so the empty case is not reached from
there. -/
theorem GetValues_empty_guarded (fuel : Nat) (scan : Option (List RegionInfo))
    (bgOk : RegionInfo → Bool) :
    GetValues fuel [] scan bgOk = .panicked ∧
      flushIndexHandles fuel [] scan bgOk = .ok [] :=
  ⟨rfl, rfl⟩

/-- Counterexample for claim C10 as stated: on the empty handle list
`GetValues` does not return normally — the unguarded `handles[0]` is an
out-of-range access. -/
theorem GetValues_empty_counterexample :
    GetValues 0 [] none (fun _ => true) = RunOutcome.panicked := rfl

end DupDetect
